import Mathlib

/-!
Verification of the reinforcement-learning portfolio rebalancer
(`rl_rebalancer.py`): a shallow embedding of the replay buffer, the
epsilon-greedy schedule, the TD-target construction and the trading
environment, together with theorems about the spec's claims.

Python floats are modelled as exact rationals (`ℚ`); numpy arrays as
lists; the unbounded `while can_buy` loop is modelled with an explicit
fuel parameter, where a result flag `false` means the loop has genuinely
exited (so the result is independent of any larger fuel).
-/

/-! ## `MultiGridEnv.action_list`: `itertools.product([0,1,2], repeat=n_grid)`

`itertools.product` iterates the first pool in the outermost loop, so the
list of length-`g` vectors over `{0,1,2}` is, in order, the block starting
with digit 0, then the block starting with 1, then the block starting
with 2, each followed by every length-`(g-1)` vector in order. -/

def actionList : Nat → List (List Nat)
  | 0 => [[]]
  | g + 1 =>
      (actionList g).map (fun v => 0 :: v) ++
        ((actionList g).map (fun v => 1 :: v) ++ (actionList g).map (fun v => 2 :: v))

/-- The integer index of an action vector in the lexicographic enumeration:
base-3 digit expansion, most-significant digit first. -/
def encodeAction (v : List Nat) : Nat :=
  v.foldl (fun acc d => 3 * acc + d) 0

/-! ## `MultiGridEnv._trade` -/

/-- The portfolio part of the environment state mutated by `_trade`:
`grid_owned` and `vehicle_in_hand`. -/
structure PortSt where
  owned : List ℚ
  cash : ℚ
deriving DecidableEq

/-- The loop `for i, a in enumerate(action_vec): if a == 0: sell_index.append(i)
elif a == 2: buy_index.append(i)`, returning `(sell_index, buy_index)`;
the first argument is the running enumeration index. -/
def splitIdx : Nat → List Nat → List Nat × List Nat
  | _, [] => ([], [])
  | i, a :: rest =>
    let p := splitIdx (i + 1) rest
    if a = 0 then (i :: p.1, p.2)
    else if a = 2 then (p.1, i :: p.2)
    else p

def sellIndex (v : List Nat) : List Nat := (splitIdx 0 v).1

def buyIndex (v : List Nat) : List Nat := (splitIdx 0 v).2

/-- The sell phase: `for i in sell_index: vehicle_in_hand += grid_demand[i] *
grid_owned[i]; grid_owned[i] = 0`. -/
def sellAll (demand : List ℚ) : List Nat → PortSt → PortSt
  | [], st => st
  | i :: rest, st =>
      sellAll demand rest
        ⟨st.owned.set i 0, st.cash + demand.getD i 0 * st.owned.getD i 0⟩

/-- One full pass of the buy loop body: `for i in buy_index: if vehicle_in_hand >
grid_demand[i]: grid_owned[i] += 1; vehicle_in_hand -= grid_demand[i] else:
can_buy = False`.  The `Bool` argument and result is `can_buy`; note the pass
runs to the end of `buy_index` even after `can_buy` has been set to `False`. -/
def buyPass (demand : List ℚ) : List Nat → PortSt → Bool → PortSt × Bool
  | [], st, canBuy => (st, canBuy)
  | i :: rest, st, canBuy =>
    if demand.getD i 0 < st.cash then
      buyPass demand rest
        ⟨st.owned.set i (st.owned.getD i 0 + 1), st.cash - demand.getD i 0⟩ canBuy
    else
      buyPass demand rest st false

/-- The `while can_buy` loop, with fuel bounding the number of passes.  The
result flag is `can_buy`: a result `(st, false)` means the source loop has
genuinely terminated with portfolio state `st` (more fuel changes nothing),
while `(st, true)` means the fuel ran out with the loop still running. -/
def buyLoop (demand : List ℚ) (buyIdx : List Nat) : Nat → PortSt → PortSt × Bool
  | 0, st => (st, true)
  | fuel + 1, st =>
    let p := buyPass demand buyIdx st true
    if p.2 then buyLoop demand buyIdx fuel p.1 else (p.1, false)

/-- `MultiGridEnv._trade(action)`: decode the action vector, sell every
sell-marked grid, then run the buy loop over the buy-marked grids. -/
def trade (g : Nat) (demand : List ℚ) (fuel : Nat) (st : PortSt) (action : Nat) :
    PortSt :=
  let actionVec := (actionList g).getD action []
  let sellIdx := sellIndex actionVec
  let buyIdx := buyIndex actionVec
  let st1 := if sellIdx = [] then st else sellAll demand sellIdx st
  if buyIdx = [] then st1 else (buyLoop demand buyIdx fuel st1).1

/-! ## `MultiGridEnv.reset` and `MultiGridEnv.step` -/

/-- The mutable state of `MultiGridEnv`: `cur_step`, `grid_owned`,
`grid_demand` and `vehicle_in_hand`. -/
structure EnvSt where
  curStep : Nat
  owned : List ℚ
  demand : List ℚ
  cash : ℚ
deriving DecidableEq

/-- `grid_owned.dot(grid_demand)`. -/
def dot (xs ys : List ℚ) : ℚ := (List.zipWith (· * ·) xs ys).sum

/-- `MultiGridEnv._get_val`. -/
def getVal (st : EnvSt) : ℚ := dot st.owned st.demand + st.cash

/-- `MultiGridEnv.reset`: `cur_step = 0`, `grid_owned = zeros(n_grid)`,
`grid_demand = data[0]`, `vehicle_in_hand = initial_investment`. -/
def resetEnv (data : List (List ℚ)) (g : Nat) (initialInvestment : ℚ) : EnvSt :=
  ⟨0, List.replicate g 0, data.getD 0 [], initialInvestment⟩

/-- `MultiGridEnv.step`: record the previous value, advance `cur_step`, read
`data[cur_step]`, trade, and return the new state together with
`reward = cur_val - prev_val` and `done = (cur_step == n_step - 1)`. -/
def stepEnv (data : List (List ℚ)) (g fuel : Nat) (st : EnvSt) (action : Nat) :
    EnvSt × ℚ × Bool :=
  let prevVal := getVal st
  let curStep := st.curStep + 1
  let demand := data.getD curStep []
  let p := trade g demand fuel ⟨st.owned, st.cash⟩ action
  let cur : EnvSt := ⟨curStep, p.owned, demand, p.cash⟩
  let curVal := getVal cur
  (cur, curVal - prevVal, curStep == data.length - 1)

/-- The fallible embedding of `step`: the read `data[cur_step + 1]` is in
bounds only when `cur_step + 1 < n_step`; outside that precondition the
source indexes past the end of the history table, modelled as `none`. -/
def stepChecked (data : List (List ℚ)) (g fuel : Nat) (st : EnvSt) (action : Nat) :
    Option (EnvSt × ℚ × Bool) :=
  if st.curStep + 1 < data.length then some (stepEnv data g fuel st action) else none

/-- Environment states reachable by a `reset` followed by any sequence of
`step` calls (any actions, any fuel for the buy loop). -/
inductive Reachable (data : List (List ℚ)) (g : Nat) (init : ℚ) : EnvSt → Prop
  | reset : Reachable data g init (resetEnv data g init)
  | step (st : EnvSt) (action fuel : Nat) :
      Reachable data g init st →
      Reachable data g init (stepEnv data g fuel st action).1

/-! ## `ReplayBuffer` -/

/-- One stored transition `(obs, act, rew, next_obs, done)`. -/
structure Transition where
  obs : List ℚ
  act : Nat
  rew : ℚ
  nextObs : List ℚ
  done : Bool
deriving DecidableEq, Inhabited

/-- The five parallel arrays of `ReplayBuffer` plus `ptr`, `size`, `max_size`. -/
structure ReplayBuffer where
  obs1Buf : List (List ℚ)
  obs2Buf : List (List ℚ)
  actsBuf : List Nat
  rewsBuf : List ℚ
  doneBuf : List Bool
  ptr : Nat
  size : Nat
  maxSize : Nat
deriving DecidableEq

/-- `ReplayBuffer.__init__(obs_dim, act_dim, size)`: zero-filled arrays,
`ptr = size = 0`, `max_size = size` argument. -/
def ReplayBuffer.init (obsDim _actDim sz : Nat) : ReplayBuffer :=
  { obs1Buf := List.replicate sz (List.replicate obsDim 0)
    obs2Buf := List.replicate sz (List.replicate obsDim 0)
    actsBuf := List.replicate sz 0
    rewsBuf := List.replicate sz 0
    doneBuf := List.replicate sz false
    ptr := 0
    size := 0
    maxSize := sz }

/-- `ReplayBuffer.store`: overwrite the slot at `ptr` in all five arrays,
advance `ptr` modulo `max_size`, grow `size` up to `max_size`. -/
def ReplayBuffer.store (b : ReplayBuffer) (t : Transition) : ReplayBuffer :=
  { b with
    obs1Buf := b.obs1Buf.set b.ptr t.obs
    obs2Buf := b.obs2Buf.set b.ptr t.nextObs
    actsBuf := b.actsBuf.set b.ptr t.act
    rewsBuf := b.rewsBuf.set b.ptr t.rew
    doneBuf := b.doneBuf.set b.ptr t.done
    ptr := (b.ptr + 1) % b.maxSize
    size := min (b.size + 1) b.maxSize }

/-- Store a whole list of transitions in order. -/
def ReplayBuffer.storeMany (b : ReplayBuffer) (ts : List Transition) : ReplayBuffer :=
  ts.foldl ReplayBuffer.store b

/-- The transition currently held in slot `s`, reassembled from the five
parallel arrays. -/
def slotTransition (b : ReplayBuffer) (s : Nat) : Transition :=
  ⟨b.obs1Buf.getD s [], b.actsBuf.getD s 0, b.rewsBuf.getD s 0,
    b.obs2Buf.getD s [], b.doneBuf.getD s false⟩

/-- The buffer obtained by storing the transitions `f 0, f 1, ..., f (m-1)`,
in that order, into a fresh buffer of capacity `C`. -/
def bufferAfterStores (C obsDim actDim m : Nat) (f : Nat → Transition) : ReplayBuffer :=
  (ReplayBuffer.init obsDim actDim C).storeMany ((List.range m).map f)

/-! ## `DQNAgent`: epsilon schedule and TD-target construction -/

/-- `self.epsilon_min = 0.01`. -/
def epsilonMin : ℚ := 1 / 100

/-- `self.epsilon_decay = 0.995`. -/
def epsilonDecay : ℚ := 995 / 1000

/-- `self.gamma = 0.95`. -/
def agentGamma : ℚ := 95 / 100

/-- The tail of `DQNAgent.replay`: `if self.epsilon > self.epsilon_min:
self.epsilon *= self.epsilon_decay`. -/
def decayEpsilon (e : ℚ) : ℚ :=
  if epsilonMin < e then e * epsilonDecay else e

/-- The effect of one `replay(batch_size)` call on `epsilon`: a silent no-op
when the buffer holds fewer than `batch_size` transitions, otherwise the
training path runs and ends with the epsilon decay step. -/
def replayEpsilon (size batchSize : Nat) (e : ℚ) : ℚ :=
  if size < batchSize then e else decayEpsilon e

/-- Epsilon after `n` replay calls that actually train, starting from the
initial `self.epsilon = 1.0`. -/
def epsAfter : Nat → ℚ
  | 0 => 1
  | n + 1 => decayEpsilon (epsAfter n)

/-- `np.amax` over one row of Q-values. -/
def amax : List ℚ → ℚ
  | [] => 0
  | x :: xs => xs.foldl max x

/-- The TD target for one sampled transition:
`rewards + (1 - done) * gamma * np.amax(predict(model, next_states), axis=1)`
(`done` is stored as 0/1). -/
def tdTarget (gamma : ℚ) (q : List ℚ → List ℚ) (t : Transition) : ℚ :=
  t.rew + (1 - (if t.done then 1 else 0)) * gamma * amax (q t.nextObs)

/-- The target matrix of `DQNAgent.replay`: `target_full = predict(model,
states)` followed by `target_full[np.arange(batch_size), actions] = target` —
row `b` is the prediction for state `b` with the entry at column
`actions[b]` overwritten by the TD target. -/
def targetFull (gamma : ℚ) (q : List ℚ → List ℚ) (batch : List Transition) :
    List (List ℚ) :=
  batch.map (fun t => (q t.obs).set t.act (tdTarget gamma q t))

/-! ## List access helper lemmas (indexing with a default, as numpy reads) -/

theorem listGetD_set_self {α : Type _} (l : List α) (i : Nat) (a d : α)
    (h : i < l.length) : (l.set i a).getD i d = a := by
  rw [List.getD_eq_getElem _ d (by simpa using h)]
  simp

theorem listGetD_set_ne {α : Type _} (l : List α) {i j : Nat} (hij : i ≠ j)
    (a d : α) : (l.set i a).getD j d = l.getD j d := by
  by_cases hj : j < l.length
  · rw [List.getD_eq_getElem _ d (by simpa using hj), List.getD_eq_getElem _ d hj]
    exact List.getElem_set_ne hij _
  · rw [List.getD_eq_default _ d (by simpa using Nat.le_of_not_lt hj),
      List.getD_eq_default _ d (Nat.le_of_not_lt hj)]

theorem listGetD_set_cases {α : Type _} (l : List α) (i j : Nat) (a d : α) :
    (l.set i a).getD j d = a ∨ (l.set i a).getD j d = l.getD j d := by
  by_cases hij : i = j
  · subst hij
    by_cases hi : i < l.length
    · exact Or.inl (listGetD_set_self _ _ _ _ hi)
    · exact Or.inr (by rw [List.set_eq_of_length_le (Nat.le_of_not_lt hi)])
  · exact Or.inr (listGetD_set_ne _ hij _ _)

theorem listGetD_nonneg {l : List ℚ} (h : ∀ x ∈ l, 0 ≤ x) (i : Nat) :
    0 ≤ l.getD i 0 := by
  by_cases hi : i < l.length
  · rw [List.getD_eq_getElem _ _ hi]
    exact h _ (List.getElem_mem hi)
  · rw [List.getD_eq_default _ _ (Nat.le_of_not_lt hi)]

/-! ## Lemmas about one pass of the buy loop -/

theorem buyPass_flag_false (demand : List ℚ) :
    ∀ (l : List Nat) (st : PortSt), (buyPass demand l st false).2 = false := by
  intro l
  induction l with
  | nil => intro st; rfl
  | cons i rest ih =>
    intro st
    by_cases hd : demand.getD i 0 < st.cash
    · simp only [buyPass, if_pos hd]; exact ih _
    · simp only [buyPass, if_neg hd]; exact ih _

theorem buyPass_unaffordable_false (demand : List ℚ) :
    ∀ (l : List Nat) (st : PortSt), (∀ i ∈ l, ¬ demand.getD i 0 < st.cash) →
      buyPass demand l st false = (st, false) := by
  intro l
  induction l with
  | nil => intro st _; rfl
  | cons i rest ih =>
    intro st h
    simp only [buyPass, if_neg (h i (by simp))]
    exact ih st (fun j hj => h j (by simp [hj]))

theorem buyPass_unaffordable (demand : List ℚ) (l : List Nat) (st : PortSt) (b : Bool)
    (hne : l ≠ []) (h : ∀ i ∈ l, ¬ demand.getD i 0 < st.cash) :
    buyPass demand l st b = (st, false) := by
  match l, hne with
  | i :: rest, _ =>
    simp only [buyPass, if_neg (h i (by simp))]
    exact buyPass_unaffordable_false demand rest st (fun j hj => h j (by simp [hj]))

theorem buyPass_cash_le (demand : List ℚ) :
    ∀ (l : List Nat) (st : PortSt) (b : Bool),
      (∀ i ∈ l, 0 ≤ demand.getD i 0) →
      (buyPass demand l st b).1.cash ≤ st.cash := by
  intro l
  induction l with
  | nil => intro st b _; exact le_refl _
  | cons i rest ih =>
    intro st b h
    by_cases hd : demand.getD i 0 < st.cash
    · simp only [buyPass, if_pos hd]
      refine le_trans (ih _ b (fun j hj => h j (by simp [hj]))) ?_
      have := h i (by simp)
      simp only
      linarith
    · simp only [buyPass, if_neg hd]
      exact ih _ false (fun j hj => h j (by simp [hj]))

theorem buyPass_exit_unaffordable (demand : List ℚ) :
    ∀ (l : List Nat) (st st' : PortSt),
      (∀ i ∈ l, 0 ≤ demand.getD i 0) →
      buyPass demand l st true = (st', false) →
      ∃ i ∈ l, st'.cash ≤ demand.getD i 0 := by
  intro l
  induction l with
  | nil =>
    intro st st' _ h
    simp only [buyPass, Prod.mk.injEq] at h
    exact absurd h.2 (by simp)
  | cons i rest ih =>
    intro st st' hnn h
    by_cases hd : demand.getD i 0 < st.cash
    · simp only [buyPass, if_pos hd] at h
      obtain ⟨j, hj, hle⟩ := ih _ st' (fun j hj => hnn j (by simp [hj])) h
      exact ⟨j, by simp [hj], hle⟩
    · simp only [buyPass, if_neg hd] at h
      refine ⟨i, by simp, ?_⟩
      have hc : st'.cash ≤ st.cash := by
        have := buyPass_cash_le demand rest st false (fun j hj => hnn j (by simp [hj]))
        rw [h] at this
        exact this
      exact le_trans hc (le_of_not_lt hd)

theorem buyPass_true_first (demand : List ℚ) (i : Nat) (rest : List Nat)
    (st st' : PortSt) (h : buyPass demand (i :: rest) st true = (st', true)) :
    demand.getD i 0 < st.cash := by
  by_contra hd
  simp only [buyPass, if_neg hd] at h
  have := buyPass_flag_false demand rest st
  rw [h] at this
  simp at this

theorem buyPass_true_cash (demand : List ℚ) (δ : ℚ) :
    ∀ (l : List Nat) (st st' : PortSt),
      (∀ i ∈ l, δ ≤ demand.getD i 0) →
      buyPass demand l st true = (st', true) →
      st'.cash + δ * l.length ≤ st.cash := by
  intro l
  induction l with
  | nil =>
    intro st st' _ h
    simp only [buyPass, Prod.mk.injEq] at h
    rw [← h.1]
    simp
  | cons i rest ih =>
    intro st st' hd h
    have hfirst : demand.getD i 0 < st.cash := buyPass_true_first demand i rest st st' h
    simp only [buyPass, if_pos hfirst] at h
    have hih := ih _ st' (fun j hj => hd j (by simp [hj])) h
    have hdi : δ ≤ demand.getD i 0 := hd i (by simp)
    simp only at hih
    have : (((i :: rest).length : ℚ)) = rest.length + 1 := by
      simp
    rw [this]
    nlinarith [hih]

/-! ## Lemmas about the whole buy loop -/

theorem buyLoop_exit_unaffordable (demand : List ℚ) (buyIdx : List Nat)
    (hnn : ∀ i ∈ buyIdx, 0 ≤ demand.getD i 0) :
    ∀ (fuel : Nat) (st st' : PortSt),
      buyLoop demand buyIdx fuel st = (st', false) →
      ∃ i ∈ buyIdx, st'.cash ≤ demand.getD i 0 := by
  intro fuel
  induction fuel with
  | zero =>
    intro st st' h
    simp only [buyLoop, Prod.mk.injEq] at h
    exact absurd h.2 (by simp)
  | succ f ih =>
    intro st st' h
    simp only [buyLoop] at h
    by_cases hb : (buyPass demand buyIdx st true).2 = true
    · rw [if_pos hb] at h
      exact ih _ _ h
    · rw [if_neg hb] at h
      have hps : buyPass demand buyIdx st true =
          ((buyPass demand buyIdx st true).1, false) := by
        rw [Prod.ext_iff]
        exact ⟨rfl, by simpa using hb⟩
      have := buyPass_exit_unaffordable demand buyIdx st
        (buyPass demand buyIdx st true).1 hnn hps
      have hst : (buyPass demand buyIdx st true).1 = st' := congrArg Prod.fst h
      rw [hst] at this
      exact this

theorem buyLoop_term_aux (demand : List ℚ) (buyIdx : List Nat) (δ : ℚ)
    (hδ : 0 < δ) (hne : buyIdx ≠ []) (hd : ∀ i ∈ buyIdx, δ ≤ demand.getD i 0) :
    ∀ (N : Nat) (st : PortSt), st.cash < δ * N →
      ∃ fuel st', buyLoop demand buyIdx fuel st = (st', false) := by
  intro N
  induction N with
  | zero =>
    intro st hcash
    by_cases hb : (buyPass demand buyIdx st true).2 = true
    · exfalso
      match buyIdx, hne with
      | i :: rest, _ =>
        have hps : buyPass demand (i :: rest) st true =
            ((buyPass demand (i :: rest) st true).1, true) := by
          rw [Prod.ext_iff]; exact ⟨rfl, by simpa using hb⟩
        have hfirst := buyPass_true_first demand i rest st _ hps
        have hdi := hd i (by simp)
        simp only [Nat.cast_zero, mul_zero] at hcash
        linarith
    · refine ⟨1, (buyPass demand buyIdx st true).1, ?_⟩
      simp [buyLoop, if_neg hb]
  | succ N ih =>
    intro st hcash
    by_cases hb : (buyPass demand buyIdx st true).2 = true
    · have hps : buyPass demand buyIdx st true =
          ((buyPass demand buyIdx st true).1, true) := by
        rw [Prod.ext_iff]; exact ⟨rfl, by simpa using hb⟩
      have hcashdec := buyPass_true_cash demand δ buyIdx st _ hd hps
      have hlen : (1 : ℚ) ≤ buyIdx.length := by
        have : 1 ≤ buyIdx.length := List.length_pos.mpr hne
        exact_mod_cast this
      have hnext : (buyPass demand buyIdx st true).1.cash < δ * N := by
        have : δ * 1 ≤ δ * buyIdx.length := by
          apply mul_le_mul_of_nonneg_left hlen (le_of_lt hδ)
        push_cast at hcash ⊢
        nlinarith
      obtain ⟨f, st', hf⟩ := ih _ hnext
      exact ⟨f + 1, st', by simp [buyLoop, if_pos hb, hf]⟩
    · exact ⟨1, (buyPass demand buyIdx st true).1, by simp [buyLoop, if_neg hb]⟩

theorem exists_min_demand (demand : List ℚ) :
    ∀ (l : List Nat), (∀ i ∈ l, 0 < demand.getD i 0) →
      ∃ δ : ℚ, 0 < δ ∧ ∀ i ∈ l, δ ≤ demand.getD i 0 := by
  intro l
  induction l with
  | nil => intro _; exact ⟨1, one_pos, by simp⟩
  | cons i rest ih =>
    intro h
    obtain ⟨δ, hδ, hall⟩ := ih (fun j hj => h j (by simp [hj]))
    refine ⟨min δ (demand.getD i 0), lt_min hδ (h i (by simp)), ?_⟩
    intro j hj
    rcases List.mem_cons.mp hj with hj | hj
    · rw [hj]; exact min_le_right _ _
    · exact le_trans (min_le_left _ _) (hall j hj)

/-- C3: for any cash amount and any non-empty list of buy-marked units whose
valuations are all strictly greater than the cash, the buy loop exits after
its very first pass (any fuel of at least one pass yields the exited state),
having bought nothing: cash and units owned are unchanged. -/
theorem buy_loop_terminates_unaffordable (demand : List ℚ) (buyIdx : List Nat)
    (st : PortSt) (fuel : Nat) (hne : buyIdx ≠ [])
    (h : ∀ i ∈ buyIdx, st.cash < demand.getD i 0) (hf : 1 ≤ fuel) :
    buyLoop demand buyIdx fuel st = (st, false) := by
  match fuel, hf with
  | f + 1, _ =>
    have hp : buyPass demand buyIdx st true = (st, false) :=
      buyPass_unaffordable demand buyIdx st true hne
        (fun i hi => not_lt_of_lt (h i hi))
    simp [buyLoop, hp]

/-- Witness for C3 at a concrete input: two units priced 5 and 7 against
cash 2. -/
theorem buy_loop_terminates_unaffordable_witness :
    buyLoop [5, 7] [0, 1] 1 ⟨[0, 0], 2⟩ = (⟨[0, 0], 2⟩, false) :=
  buy_loop_terminates_unaffordable [5, 7] [0, 1] ⟨[0, 0], 2⟩ 1 (by simp)
    (by intro i hi; fin_cases hi <;> norm_num) (le_refl 1)

/-- C1 counterexample: with valuations 100 and 1 for two buy-marked units and
cash 50, the loop exits at the end of the first pass (unit 0 was
unaffordable), yet it has just bought unit 1 and still holds cash 49 > 1, so
NOT every buy-marked unit has valuation at least the remaining cash on exit. -/
theorem buy_loop_stop_counterexample :
    buyLoop [100, 1] [0, 1] 1 ⟨[0, 0], 50⟩ = (⟨[0, 1], 49⟩, false) ∧
    ¬ ∀ i ∈ ([0, 1] : List Nat),
        (buyLoop [100, 1] [0, 1] 1 ⟨[0, 0], 50⟩).1.cash ≤ ([100, 1] : List ℚ).getD i 0 := by
  constructor
  · norm_num [buyLoop, buyPass]
  · intro h
    have h1 := h 1 (by simp)
    norm_num [buyLoop, buyPass] at h1

/-- C1 (amended): with a non-empty list of buy-marked units of strictly
positive valuations, the buy loop keeps making round-robin passes, buying one
whole unit whenever cash strictly exceeds that unit's valuation; it
terminates (for some finite fuel the pass flag goes false, after which more
fuel changes nothing), and on exit AT LEAST ONE buy-marked unit has valuation
greater than or equal to the remaining cash — not necessarily all of them,
since the pass that trips `can_buy` still buys affordable units later in the
same pass. -/
theorem buy_loop_exit_exists_unaffordable (demand : List ℚ) (buyIdx : List Nat)
    (st : PortSt) (hne : buyIdx ≠ []) (hpos : ∀ i ∈ buyIdx, 0 < demand.getD i 0) :
    ∃ fuel st', buyLoop demand buyIdx fuel st = (st', false) ∧
      ∃ i ∈ buyIdx, st'.cash ≤ demand.getD i 0 := by
  obtain ⟨δ, hδ, hall⟩ := exists_min_demand demand buyIdx hpos
  obtain ⟨N, hN⟩ := exists_nat_gt (st.cash / δ)
  have hcash : st.cash < δ * N := by
    rw [div_lt_iff₀ hδ] at hN
    linarith
  obtain ⟨fuel, st', hloop⟩ := buyLoop_term_aux demand buyIdx δ hδ hne hall N st hcash
  exact ⟨fuel, st', hloop,
    buyLoop_exit_unaffordable demand buyIdx (fun i hi => le_of_lt (hpos i hi)) fuel st st' hloop⟩

/-- Witness for the amended C1 at a concrete input: units priced 2 and 3
against cash 10. -/
theorem buy_loop_exit_exists_unaffordable_witness :
    ∃ fuel st', buyLoop [2, 3] [0, 1] fuel ⟨[0, 0], 10⟩ = (st', false) ∧
      ∃ i ∈ ([0, 1] : List Nat), st'.cash ≤ ([2, 3] : List ℚ).getD i 0 :=
  buy_loop_exit_exists_unaffordable [2, 3] [0, 1] ⟨[0, 0], 10⟩ (by simp)
    (by intro i hi; fin_cases hi <;> norm_num)

/-! ## Sell-then-buy ordering (C5) -/

theorem listGetD_set_incr (l : List ℚ) (i j : Nat) :
    l.getD j 0 ≤ (l.set i (l.getD i 0 + 1)).getD j 0 := by
  by_cases hij : i = j
  · subst hij
    by_cases hi : i < l.length
    · rw [listGetD_set_self _ _ _ _ hi]; linarith
    · rw [List.set_eq_of_length_le (Nat.le_of_not_lt hi)]
  · rw [listGetD_set_ne _ hij]

theorem buyPass_owned_mono (demand : List ℚ) (j : Nat) :
    ∀ (l : List Nat) (st : PortSt) (b : Bool),
      st.owned.getD j 0 ≤ (buyPass demand l st b).1.owned.getD j 0 := by
  intro l
  induction l with
  | nil => intro st b; exact le_refl _
  | cons i rest ih =>
    intro st b
    by_cases hd : demand.getD i 0 < st.cash
    · simp only [buyPass, if_pos hd]
      exact le_trans (listGetD_set_incr st.owned i j) (ih _ b)
    · simp only [buyPass, if_neg hd]
      exact ih _ false

theorem buyLoop_owned_mono (demand : List ℚ) (buyIdx : List Nat) (j : Nat) :
    ∀ (fuel : Nat) (st : PortSt),
      st.owned.getD j 0 ≤ ((buyLoop demand buyIdx fuel st).1).owned.getD j 0 := by
  intro fuel
  induction fuel with
  | zero => intro st; exact le_refl _
  | succ f ih =>
    intro st
    simp only [buyLoop]
    by_cases hb : (buyPass demand buyIdx st true).2 = true
    · rw [if_pos hb]
      exact le_trans (buyPass_owned_mono demand j buyIdx st true) (ih _)
    · rw [if_neg hb]
      exact buyPass_owned_mono demand j buyIdx st true

/-- C5: when the action vector marks exactly unit `i` as sell and exactly the
distinct unit `j` as buy, the buy's affordability is checked against the cash
balance AFTER the sell proceeds `demand[i] * owned[i]` have been credited: if
that post-sell balance strictly exceeds `demand[j]`, the trade buys at least
one unit of `j` — even when the pre-sell balance was insufficient, as the
witness below shows. -/
theorem sell_credits_before_buy (g : Nat) (demand : List ℚ) (fuel : Nat)
    (st : PortSt) (a i j : Nat)
    (hs : sellIndex ((actionList g).getD a []) = [i])
    (hb : buyIndex ((actionList g).getD a []) = [j])
    (hij : i ≠ j) (hjlen : j < st.owned.length) (hfuel : 1 ≤ fuel)
    (hafford : demand.getD j 0 < st.cash + demand.getD i 0 * st.owned.getD i 0) :
    st.owned.getD j 0 + 1 ≤ (trade g demand fuel st a).owned.getD j 0 := by
  have htr : trade g demand fuel st a =
      (buyLoop demand [j] fuel (sellAll demand [i] st)).1 := by
    simp only [trade]
    rw [hs, hb]
    simp
  rw [htr]
  set st1 : PortSt :=
    ⟨st.owned.set i 0, st.cash + demand.getD i 0 * st.owned.getD i 0⟩ with hst1
  have hsell : sellAll demand [i] st = st1 := by
    simp [sellAll, hst1]
  rw [hsell]
  match fuel, hfuel with
  | f + 1, _ =>
    have hcash1 : demand.getD j 0 < st1.cash := by
      rw [hst1]
      exact hafford
    set st2 : PortSt :=
      ⟨st1.owned.set j (st1.owned.getD j 0 + 1), st1.cash - demand.getD j 0⟩ with hst2
    have hpass : buyPass demand [j] st1 true = (st2, true) := by
      simp only [buyPass, if_pos hcash1]
    have hloopstep : buyLoop demand [j] (f + 1) st1 = buyLoop demand [j] f st2 := by
      simp [buyLoop, hpass]
    rw [hloopstep]
    have hmono := buyLoop_owned_mono demand [j] j f st2
    have hj2 : st2.owned.getD j 0 = st1.owned.getD j 0 + 1 := by
      rw [hst2]
      exact listGetD_set_self _ _ _ _ (by simpa using hjlen)
    have hj1 : st1.owned.getD j 0 = st.owned.getD j 0 := by
      rw [hst1]
      exact listGetD_set_ne _ hij _ _
    rw [hj2, hj1] at hmono
    exact hmono

/-- Witness for C5: action 2 of a 2-grid environment is the vector `[0, 2]`
(sell unit 0, buy unit 1); with valuations `[2, 5]`, 3 units of grid 0 owned
and pre-sell cash 1 < 5, the post-sell cash 1 + 2*3 = 7 > 5 lets the buy
happen. -/
theorem sell_credits_before_buy_witness :
    ([3, 0] : List ℚ).getD 1 0 + 1 ≤ (trade 2 [2, 5] 1 ⟨[3, 0], 1⟩ 2).owned.getD 1 0 :=
  sell_credits_before_buy 2 [2, 5] 1 ⟨[3, 0], 1⟩ 2 0 1 (by decide) (by decide)
    (by decide) (by decide) (le_refl 1) (by norm_num)

/-! ## Hold-only actions (C9) -/

theorem splitIdx_all_hold :
    ∀ (v : List Nat) (n : Nat), (∀ x ∈ v, x = 1) → splitIdx n v = ([], []) := by
  intro v
  induction v with
  | nil => intro n _; rfl
  | cons a rest ih =>
    intro n h
    have ha : a = 1 := h a (by simp)
    simp [splitIdx, ha, ih (n + 1) (fun x hx => h x (by simp [hx]))]

theorem trade_hold (g : Nat) (demand : List ℚ) (fuel : Nat) (st : PortSt) (a : Nat)
    (hvec : (actionList g).getD a [] = List.replicate g 1) :
    trade g demand fuel st a = st := by
  have hsplit : splitIdx 0 ((actionList g).getD a []) = ([], []) := by
    rw [hvec]
    exact splitIdx_all_hold _ 0 (fun x hx => List.eq_of_mem_replicate hx)
  simp only [trade, sellIndex, buyIndex, hsplit]
  simp

/-- C9: when the action decodes to the all-hold vector, the trade leaves
`grid_owned` and `vehicle_in_hand` exactly unchanged, and the step's reward
is the change of the dot product of the unchanged holdings with the new
versus the old valuation row. -/
theorem hold_only_step (data : List (List ℚ)) (g fuel : Nat) (st : EnvSt) (a : Nat)
    (hvec : (actionList g).getD a [] = List.replicate g 1) :
    stepEnv data g fuel st a =
      (⟨st.curStep + 1, st.owned, data.getD (st.curStep + 1) [], st.cash⟩,
        dot st.owned (data.getD (st.curStep + 1) []) - dot st.owned st.demand,
        (st.curStep + 1 == data.length - 1)) := by
  have htr : trade g (data.getD (st.curStep + 1) []) fuel ⟨st.owned, st.cash⟩ a =
      ⟨st.owned, st.cash⟩ := trade_hold g _ fuel _ a hvec
  simp only [stepEnv, htr, getVal, Prod.mk.injEq]
  refine ⟨trivial, by ring, trivial⟩

/-- Witness for C9: in a 3-grid environment the all-hold action is index 13
(base-3 digits 1,1,1). -/
theorem hold_only_step_witness :
    stepEnv [[1, 2, 3], [4, 5, 6]] 3 1 ⟨0, [1, 0, 2], [1, 2, 3], 7⟩ 13 =
      (⟨1, [1, 0, 2], [4, 5, 6], 7⟩,
        dot [1, 0, 2] [4, 5, 6] - dot [1, 0, 2] [1, 2, 3],
        ((0 : Nat) + 1 == ([[1, 2, 3], [4, 5, 6]] : List (List ℚ)).length - 1)) :=
  hold_only_step [[1, 2, 3], [4, 5, 6]] 3 1 ⟨0, [1, 0, 2], [1, 2, 3], 7⟩ 13 (by decide)

/-! ## Step precondition (C10) -/

/-- C10: `step` reads `data[cur_step + 1]`, so the fallible embedding
succeeds exactly when `cur_step + 1 < n_step`, equivalently when
`cur_step < n_step - 1` at entry; and after a step has returned
`done = true` (its new `cur_step` equals `n_step - 1`), any further step is
out of bounds (`none`), whatever the action and fuel. -/
theorem step_bounds (data : List (List ℚ)) (g fuel : Nat) (st : EnvSt) (a : Nat) :
    ((stepChecked data g fuel st a).isSome ↔ st.curStep + 1 < data.length) ∧
    (st.curStep + 1 < data.length ↔ st.curStep < data.length - 1) ∧
    (∀ st' r d, stepEnv data g fuel st a = (st', r, d) → d = true →
      ∀ a' fuel', stepChecked data g fuel' st' a' = none) := by
  refine ⟨?_, by omega, ?_⟩
  · by_cases h : st.curStep + 1 < data.length
    · simp [stepChecked, h]
    · simp [stepChecked, h]
  · intro st' r d hstep hd a' fuel'
    simp only [stepEnv, Prod.mk.injEq] at hstep
    obtain ⟨hst', _, hdone⟩ := hstep
    have hcur : st'.curStep = st.curStep + 1 := by rw [← hst']
    rw [← hdone] at hd
    have heq : st.curStep + 1 = data.length - 1 := by
      simpa using hd
    simp only [stepChecked, hcur]
    rw [if_neg]
    omega

/-- Witness for C10: a 3-row history; stepping from `cur_step = 1` returns
`done = true`, and the step after that is out of bounds. -/
theorem step_bounds_witness :
    stepChecked [[1], [2], [3]] 1 1 ⟨2, [0], [3], 5⟩ 1 = none :=
  (step_bounds [[1], [2], [3]] 1 1 ⟨1, [0], [2], 5⟩ 1).2.2
    ⟨2, [0], [3], 5⟩ 0 true (by norm_num [stepEnv, trade, sellIndex, buyIndex,
      splitIdx, actionList, getVal, dot]) rfl 1 1

/-! ## Cash non-negativity (C4) -/

theorem sellAll_preserves (demand : List ℚ) (hdem : ∀ j, 0 ≤ demand.getD j 0) :
    ∀ (l : List Nat) (st : PortSt),
      0 ≤ st.cash → (∀ j, 0 ≤ st.owned.getD j 0) →
      0 ≤ (sellAll demand l st).cash ∧
        ∀ j, 0 ≤ (sellAll demand l st).owned.getD j 0 := by
  intro l
  induction l with
  | nil => intro st hc ho; exact ⟨hc, ho⟩
  | cons i rest ih =>
    intro st hc ho
    refine ih _ ?_ ?_
    · have := mul_nonneg (hdem i) (ho i)
      simp only
      linarith
    · intro j
      simp only
      rcases listGetD_set_cases st.owned i j 0 0 with h | h
      · rw [h]
      · rw [h]; exact ho j

theorem buyPass_preserves (demand : List ℚ) :
    ∀ (l : List Nat) (st : PortSt) (b : Bool),
      0 ≤ st.cash → (∀ j, 0 ≤ st.owned.getD j 0) →
      0 ≤ (buyPass demand l st b).1.cash ∧
        ∀ j, 0 ≤ (buyPass demand l st b).1.owned.getD j 0 := by
  intro l
  induction l with
  | nil => intro st b hc ho; exact ⟨hc, ho⟩
  | cons i rest ih =>
    intro st b hc ho
    by_cases hd : demand.getD i 0 < st.cash
    · simp only [buyPass, if_pos hd]
      refine ih _ b ?_ ?_
      · simp only
        linarith
      · intro j
        simp only
        rcases listGetD_set_cases st.owned i j (st.owned.getD i 0 + 1) 0 with h | h
        · rw [h]
          have := ho i
          linarith
        · rw [h]; exact ho j
    · simp only [buyPass, if_neg hd]
      exact ih _ false hc ho

theorem buyLoop_preserves (demand : List ℚ) (buyIdx : List Nat) :
    ∀ (fuel : Nat) (st : PortSt),
      0 ≤ st.cash → (∀ j, 0 ≤ st.owned.getD j 0) →
      0 ≤ (buyLoop demand buyIdx fuel st).1.cash ∧
        ∀ j, 0 ≤ (buyLoop demand buyIdx fuel st).1.owned.getD j 0 := by
  intro fuel
  induction fuel with
  | zero => intro st hc ho; exact ⟨hc, ho⟩
  | succ f ih =>
    intro st hc ho
    obtain ⟨hc', ho'⟩ := buyPass_preserves demand buyIdx st true hc ho
    simp only [buyLoop]
    by_cases hb : (buyPass demand buyIdx st true).2 = true
    · rw [if_pos hb]
      exact ih _ hc' ho'
    · rw [if_neg hb]
      exact ⟨hc', ho'⟩

theorem trade_preserves (g : Nat) (demand : List ℚ) (fuel : Nat) (st : PortSt)
    (a : Nat) (hdem : ∀ j, 0 ≤ demand.getD j 0)
    (hc : 0 ≤ st.cash) (ho : ∀ j, 0 ≤ st.owned.getD j 0) :
    0 ≤ (trade g demand fuel st a).cash ∧
      ∀ j, 0 ≤ (trade g demand fuel st a).owned.getD j 0 := by
  simp only [trade]
  split_ifs with hbuy hsell hsell
  · exact ⟨hc, ho⟩
  · exact sellAll_preserves demand hdem _ st hc ho
  · exact buyLoop_preserves demand _ fuel st hc ho
  · have h1 := sellAll_preserves demand hdem (sellIndex ((actionList g).getD a [])) st hc ho
    exact buyLoop_preserves demand _ fuel _ h1.1 h1.2

theorem data_row_nonneg (data : List (List ℚ))
    (hdata : ∀ row ∈ data, ∀ x ∈ row, 0 ≤ x) (s j : Nat) :
    0 ≤ (data.getD s []).getD j 0 := by
  by_cases hs : s < data.length
  · rw [List.getD_eq_getElem _ _ hs]
    exact listGetD_nonneg (hdata _ (List.getElem_mem hs)) j
  · rw [List.getD_eq_default _ _ (Nat.le_of_not_lt hs)]
    simp

theorem reachable_inv (data : List (List ℚ)) (g : Nat) (init : ℚ)
    (hdata : ∀ row ∈ data, ∀ x ∈ row, 0 ≤ x) (hinit : 0 ≤ init) :
    ∀ st, Reachable data g init st →
      0 ≤ st.cash ∧ ∀ j, 0 ≤ st.owned.getD j 0 := by
  intro st h
  induction h with
  | reset =>
    refine ⟨hinit, ?_⟩
    intro j
    exact listGetD_nonneg (fun x hx => le_of_eq (List.eq_of_mem_replicate hx).symm) j
  | step st' action fuel _ ih =>
    exact trade_preserves g (data.getD (st'.curStep + 1) []) fuel
      ⟨st'.owned, st'.cash⟩ action
      (data_row_nonneg data hdata (st'.curStep + 1)) ih.1 ih.2

/-- C4: whenever every entry of the valuation history is non-negative and the
initial investment is non-negative, every environment state reachable by a
reset followed by any sequence of steps has non-negative cash — the strict
`>` affordability check alone keeps `vehicle_in_hand` from going negative. -/
theorem cash_nonneg_reachable (data : List (List ℚ)) (g : Nat) (init : ℚ)
    (hdata : ∀ row ∈ data, ∀ x ∈ row, 0 ≤ x) (hinit : 0 ≤ init) :
    ∀ st, Reachable data g init st → 0 ≤ st.cash :=
  fun st h => (reachable_inv data g init hdata hinit st h).1

/-- Witness for C4 at a concrete reachable state. -/
theorem cash_nonneg_reachable_witness :
    0 ≤ (stepEnv [[1, 2], [3, 4]] 2 1 (resetEnv [[1, 2], [3, 4]] 2 5) 8).1.cash :=
  cash_nonneg_reachable [[1, 2], [3, 4]] 2 5
    (by intro row hrow x hx; fin_cases hrow <;> fin_cases hx <;> norm_num)
    (by norm_num) _ (Reachable.step _ 8 1 Reachable.reset)

/-! ## Replay buffer wraparound (C6) -/

theorem storeMany_append_single (b : ReplayBuffer) (ts : List Transition) (t : Transition) :
    b.storeMany (ts ++ [t]) = (b.storeMany ts).store t := by
  simp [ReplayBuffer.storeMany, List.foldl_append]

theorem slotTransition_store_self (b : ReplayBuffer) (t : Transition)
    (h1 : b.ptr < b.obs1Buf.length) (h2 : b.ptr < b.obs2Buf.length)
    (h3 : b.ptr < b.actsBuf.length) (h4 : b.ptr < b.rewsBuf.length)
    (h5 : b.ptr < b.doneBuf.length) :
    slotTransition (b.store t) b.ptr = t := by
  simp only [slotTransition, ReplayBuffer.store]
  rw [listGetD_set_self _ _ _ _ h1, listGetD_set_self _ _ _ _ h2,
    listGetD_set_self _ _ _ _ h3, listGetD_set_self _ _ _ _ h4,
    listGetD_set_self _ _ _ _ h5]

theorem slotTransition_store_ne (b : ReplayBuffer) (t : Transition) (s : Nat)
    (hs : b.ptr ≠ s) : slotTransition (b.store t) s = slotTransition b s := by
  simp only [slotTransition, ReplayBuffer.store]
  rw [listGetD_set_ne _ hs, listGetD_set_ne _ hs, listGetD_set_ne _ hs,
    listGetD_set_ne _ hs, listGetD_set_ne _ hs]

theorem storeMany_spec (C obsDim actDim : Nat) (hC : 1 ≤ C) (f : Nat → Transition) :
    ∀ m,
      (bufferAfterStores C obsDim actDim m f).maxSize = C ∧
      (bufferAfterStores C obsDim actDim m f).obs1Buf.length = C ∧
      (bufferAfterStores C obsDim actDim m f).obs2Buf.length = C ∧
      (bufferAfterStores C obsDim actDim m f).actsBuf.length = C ∧
      (bufferAfterStores C obsDim actDim m f).rewsBuf.length = C ∧
      (bufferAfterStores C obsDim actDim m f).doneBuf.length = C ∧
      (bufferAfterStores C obsDim actDim m f).ptr = m % C ∧
      (bufferAfterStores C obsDim actDim m f).size = min m C ∧
      ∀ s, s < min m C → ∃ j, j < m ∧ m ≤ j + C ∧ j % C = s ∧
        slotTransition (bufferAfterStores C obsDim actDim m f) s = f j := by
  intro m
  induction m with
  | zero =>
    refine ⟨rfl, by simp [bufferAfterStores, ReplayBuffer.storeMany, ReplayBuffer.init],
      by simp [bufferAfterStores, ReplayBuffer.storeMany, ReplayBuffer.init],
      by simp [bufferAfterStores, ReplayBuffer.storeMany, ReplayBuffer.init],
      by simp [bufferAfterStores, ReplayBuffer.storeMany, ReplayBuffer.init],
      by simp [bufferAfterStores, ReplayBuffer.storeMany, ReplayBuffer.init],
      by simp [bufferAfterStores, ReplayBuffer.storeMany, ReplayBuffer.init],
      by simp [bufferAfterStores, ReplayBuffer.storeMany, ReplayBuffer.init], ?_⟩
    intro s hs
    omega
  | succ m ih =>
    obtain ⟨hmax, hl1, hl2, hl3, hl4, hl5, hptr, hsize, hslots⟩ := ih
    have hstep : bufferAfterStores C obsDim actDim (m + 1) f =
        (bufferAfterStores C obsDim actDim m f).store (f m) := by
      simp only [bufferAfterStores, List.range_succ, List.map_append, List.map_cons,
        List.map_nil]
      exact storeMany_append_single _ _ _
    set B := bufferAfterStores C obsDim actDim m f with hB
    have hptrlt : B.ptr < C := by rw [hptr]; exact Nat.mod_lt _ (by omega)
    refine ⟨?_, ?_, ?_, ?_, ?_, ?_, ?_, ?_, ?_⟩
    · rw [hstep]; simp [ReplayBuffer.store, hmax]
    · rw [hstep]; simp [ReplayBuffer.store, hl1]
    · rw [hstep]; simp [ReplayBuffer.store, hl2]
    · rw [hstep]; simp [ReplayBuffer.store, hl3]
    · rw [hstep]; simp [ReplayBuffer.store, hl4]
    · rw [hstep]; simp [ReplayBuffer.store, hl5]
    · rw [hstep]
      simp only [ReplayBuffer.store, hmax, hptr]
      exact (Nat.mod_modEq m C).add_right 1
    · rw [hstep]
      simp only [ReplayBuffer.store, hmax, hsize]
      omega
    · intro s hs
      by_cases hsp : s = m % C
      · refine ⟨m, by omega, by omega, hsp.symm, ?_⟩
        rw [hstep]
        have := slotTransition_store_self B (f m)
          (by omega) (by omega) (by omega) (by omega) (by omega)
        rw [hptr] at this
        rw [← hsp] at this
        exact this
      · have hsm : s < min m C := by
          by_cases hm : m < C
          · have : m % C = m := Nat.mod_eq_of_lt hm
            omega
          · omega
        obtain ⟨j, hj1, hj2, hj3, hj4⟩ := hslots s hsm
        refine ⟨j, by omega, ?_, hj3, ?_⟩
        · by_cases hcontra : m + 1 ≤ j + C
          · exact hcontra
          · exfalso
            have hm : m = j + C := by omega
            have : m % C = j % C := by
              rw [hm]
              exact Nat.add_mod_right j C
            omega
        · rw [hstep]
          rw [slotTransition_store_ne B (f m) s (by rw [hptr]; exact fun h => hsp h.symm)]
          exact hj4

/-- C6: storing `C + k` transitions into a fresh buffer of capacity `C ≥ 1`
leaves `size = C` and `ptr = (C + k) % C`; the transition stored k-th
(0-indexed) is still in some slot, and no transition stored earlier than the
k-th survives anywhere in the buffer (so the k-th is the oldest survivor). -/
theorem buffer_wraparound (C k obsDim actDim : Nat) (hC : 1 ≤ C)
    (f : Nat → Transition) (hinj : Function.Injective f) :
    (bufferAfterStores C obsDim actDim (C + k) f).size = C ∧
    (bufferAfterStores C obsDim actDim (C + k) f).ptr = (C + k) % C ∧
    (∃ s, s < C ∧ slotTransition (bufferAfterStores C obsDim actDim (C + k) f) s = f k) ∧
    (∀ j, j < k → ∀ s, s < C →
      slotTransition (bufferAfterStores C obsDim actDim (C + k) f) s ≠ f j) := by
  obtain ⟨_, _, _, _, _, _, hptr, hsize, hslots⟩ :=
    storeMany_spec C obsDim actDim hC f (C + k)
  refine ⟨by omega, hptr, ?_, ?_⟩
  · have hkC : k % C < min (C + k) C := by
      have := Nat.mod_lt k (show 0 < C by omega)
      omega
    obtain ⟨j, hj1, hj2, hj3, hj4⟩ := hslots (k % C) hkC
    have hjk : j = k := by
      have hkj : k ≤ j := by omega
      have hmod : k % C = j % C := hj3.symm
      have hdvd : C ∣ j - k := (Nat.modEq_iff_dvd' hkj).mp hmod
      have hz : j - k = 0 := Nat.eq_zero_of_dvd_of_lt hdvd (by omega)
      omega
    refine ⟨k % C, by omega, ?_⟩
    rw [hjk] at hj4
    exact hj4
  · intro j' hj' s hsC
    have hsmin : s < min (C + k) C := by omega
    obtain ⟨j, hj1, hj2, hj3, hj4⟩ := hslots s hsmin
    rw [hj4]
    intro hcontra
    have := hinj hcontra
    omega

/-- Witness for C6: capacity 2, five stores of transitions tagged by their
action field; the oldest survivor is the one stored third (index 3 of 0..4). -/
theorem buffer_wraparound_witness :
    (bufferAfterStores 2 1 1 (2 + 3) (fun n => ⟨[], n, 0, [], false⟩)).size = 2 ∧
    (bufferAfterStores 2 1 1 (2 + 3) (fun n => ⟨[], n, 0, [], false⟩)).ptr = (2 + 3) % 2 ∧
    (∃ s, s < 2 ∧ slotTransition (bufferAfterStores 2 1 1 (2 + 3)
      (fun n => ⟨[], n, 0, [], false⟩)) s = ⟨[], 3, 0, [], false⟩) ∧
    (∀ j, j < 3 → ∀ s, s < 2 →
      slotTransition (bufferAfterStores 2 1 1 (2 + 3)
        (fun n => ⟨[], n, 0, [], false⟩)) s ≠ ⟨[], j, 0, [], false⟩) :=
  buffer_wraparound 2 3 1 1 (by norm_num) (fun n => ⟨[], n, 0, [], false⟩)
    (fun a b h => by simpa using congrArg Transition.act h)

/-! ## Target-matrix masking (C7) -/

/-- C7: the target matrix is the prediction matrix with, in each sampled row,
only the entry in the taken action's column overwritten by the TD target
`r + (1 - done) * gamma * max Q(s')`; every other column keeps the plain
prediction. -/
theorem target_matrix_masking (gamma : ℚ) (q : List ℚ → List ℚ)
    (batch : List Transition) (b : Nat) (hb : b < batch.length) :
    (∀ c, c ≠ (batch.getD b default).act →
      ((targetFull gamma q batch).getD b []).getD c 0 =
        (q (batch.getD b default).obs).getD c 0) ∧
    ((batch.getD b default).act < (q (batch.getD b default).obs).length →
      ((targetFull gamma q batch).getD b []).getD (batch.getD b default).act 0 =
        tdTarget gamma q (batch.getD b default)) := by
  have hrow : (targetFull gamma q batch).getD b [] =
      (q (batch.getD b default).obs).set (batch.getD b default).act
        (tdTarget gamma q (batch.getD b default)) := by
    rw [List.getD_eq_getElem _ _ (by simpa [targetFull] using hb)]
    simp only [targetFull, List.getElem_map]
    rw [List.getD_eq_getElem _ _ hb]
  rw [hrow]
  constructor
  · intro c hc
    exact listGetD_set_ne _ (fun h => hc h.symm) _ _
  · intro hlt
    exact listGetD_set_self _ _ _ _ hlt

/-- Witness for C7: a one-transition batch with action 0 and a two-column
Q-function; the taken-action entry of the target matrix is the TD target. -/
theorem target_matrix_masking_witness :
    ((targetFull (95/100) (fun s => [s.getD 0 0, 7]) [⟨[1], 0, 2, [3], false⟩]).getD 0 []).getD 0 0 =
      tdTarget (95/100) (fun s => [s.getD 0 0, 7]) ⟨[1], 0, 2, [3], false⟩ :=
  (target_matrix_masking (95/100) (fun s => [s.getD 0 0, 7]) [⟨[1], 0, 2, [3], false⟩]
    0 (by norm_num)).2 (by norm_num)

/-! ## Action encoding bijection (C8) -/

theorem length_actionList : ∀ g, (actionList g).length = 3 ^ g := by
  intro g
  induction g with
  | zero => rfl
  | succ g ih =>
    simp only [actionList, List.length_append, List.length_map, ih]
    rw [pow_succ]
    ring

theorem mem_actionList_length : ∀ {g : Nat} {v : List Nat},
    v ∈ actionList g → v.length = g := by
  intro g
  induction g with
  | zero => intro v hv; simp [actionList] at hv; simp [hv]
  | succ g ih =>
    intro v hv
    simp only [actionList, List.mem_append, List.mem_map] at hv
    rcases hv with ⟨w, hw, rfl⟩ | ⟨w, hw, rfl⟩ | ⟨w, hw, rfl⟩ <;>
      simp [ih hw]

theorem encode_foldl (v : List Nat) :
    ∀ a : Nat, v.foldl (fun acc d => 3 * acc + d) a =
      a * 3 ^ v.length + v.foldl (fun acc d => 3 * acc + d) 0 := by
  induction v with
  | nil => intro a; simp
  | cons d w ih =>
    intro a
    simp only [List.foldl_cons, List.length_cons]
    rw [ih (3 * a + d), ih (3 * 0 + d)]
    ring

theorem encode_cons (d : Nat) (w : List Nat) :
    encodeAction (d :: w) = d * 3 ^ w.length + encodeAction w := by
  simp only [encodeAction, List.foldl_cons]
  rw [encode_foldl w (3 * 0 + d)]
  ring

theorem actionList_getD_encode :
    ∀ (g n : Nat), n < 3 ^ g → encodeAction ((actionList g).getD n []) = n := by
  intro g
  induction g with
  | zero =>
    intro n hn
    interval_cases n
    rfl
  | succ g ih =>
    intro n hn
    have hlen : (actionList g).length = 3 ^ g := length_actionList g
    have hlenm : ∀ d : Nat, ((actionList g).map (fun v => d :: v)).length = 3 ^ g := by
      intro d; simp [hlen]
    have hmemlen : ∀ m : Nat, m < 3 ^ g → ((actionList g).getD m []).length = g := by
      intro m hm
      have : (actionList g).getD m [] = (actionList g)[m] :=
        List.getD_eq_getElem _ _ (by omega)
      rw [this]
      exact mem_actionList_length (List.getElem_mem (by omega))
    simp only [actionList]
    by_cases h0 : n < 3 ^ g
    · rw [List.getD_append _ _ _ _ (by rw [hlenm]; omega)]
      have : ((actionList g).map (fun v => 0 :: v)).getD n [] =
          0 :: (actionList g).getD n [] := by
        rw [List.getD_eq_getElem _ _ (by rw [hlenm]; omega), List.getElem_map,
          List.getD_eq_getElem _ _ (by omega)]
      rw [this, encode_cons, hmemlen n h0, ih n h0]
      ring
    · rw [List.getD_append_right _ _ _ _ (by rw [hlenm]; omega)]
      rw [hlenm]
      by_cases h1 : n < 2 * 3 ^ g
      · rw [List.getD_append _ _ _ _ (by rw [hlenm]; omega)]
        have : ((actionList g).map (fun v => 1 :: v)).getD (n - 3 ^ g) [] =
            1 :: (actionList g).getD (n - 3 ^ g) [] := by
          rw [List.getD_eq_getElem _ _ (by rw [hlenm]; omega), List.getElem_map,
            List.getD_eq_getElem _ _ (by omega)]
        rw [this, encode_cons, hmemlen _ (by omega), ih _ (by omega)]
        omega
      · have hn3 : n < 3 * 3 ^ g := by
          have := pow_succ 3 g
          omega
        rw [List.getD_append_right _ _ _ _ (by rw [hlenm]; omega)]
        rw [hlenm]
        have : ((actionList g).map (fun v => 2 :: v)).getD (n - 3 ^ g - 3 ^ g) [] =
            2 :: (actionList g).getD (n - 3 ^ g - 3 ^ g) [] := by
          rw [List.getD_eq_getElem _ _ (by rw [hlenm]; omega), List.getElem_map,
            List.getD_eq_getElem _ _ (by omega)]
        rw [this, encode_cons, hmemlen _ (by omega), ih _ (by omega)]
        omega

theorem mem_actionList_of :
    ∀ (g : Nat) (v : List Nat), v.length = g → (∀ d ∈ v, d < 3) → v ∈ actionList g := by
  intro g
  induction g with
  | zero =>
    intro v hv _
    rw [List.length_eq_zero] at hv
    simp [actionList, hv]
  | succ g ih =>
    intro v hv hd
    match v, hv with
    | d :: w, hv =>
      have hw : w ∈ actionList g :=
        ih w (by simpa using hv) (fun x hx => hd x (by simp [hx]))
      have hd3 : d < 3 := hd d (by simp)
      simp only [actionList, List.mem_append, List.mem_map]
      interval_cases d
      · exact Or.inl ⟨w, hw, rfl⟩
      · exact Or.inr (Or.inl ⟨w, hw, rfl⟩)
      · exact Or.inr (Or.inr ⟨w, hw, rfl⟩)

/-- C8: the enumeration `action_list` of a `g`-grid environment is a
bijection between the integers `[0, 3^g)` and the vectors `{0,1,2}^g` in
base-3 lexicographic order: it has `3^g` entries, re-encoding the vector at
index `n` recovers `n`, distinct indices give distinct vectors, and every
vector over `{0,1,2}` of length `g` occurs at some index. -/
theorem action_encoding_bijection (g : Nat) :
    (actionList g).length = 3 ^ g ∧
    (∀ n, n < 3 ^ g → encodeAction ((actionList g).getD n []) = n) ∧
    (∀ n m, n < 3 ^ g → m < 3 ^ g →
      (actionList g).getD n [] = (actionList g).getD m [] → n = m) ∧
    (∀ v : List Nat, v.length = g → (∀ d ∈ v, d < 3) →
      ∃ n, n < 3 ^ g ∧ (actionList g).getD n [] = v) := by
  refine ⟨length_actionList g, actionList_getD_encode g, ?_, ?_⟩
  · intro n m hn hm heq
    have h1 := actionList_getD_encode g n hn
    have h2 := actionList_getD_encode g m hm
    rw [heq] at h1
    omega
  · intro v hv hd
    have hmem := mem_actionList_of g v hv hd
    obtain ⟨n, hn, hget⟩ := List.mem_iff_getElem.mp hmem
    refine ⟨n, by rw [length_actionList] at hn; exact hn, ?_⟩
    rw [List.getD_eq_getElem _ _ hn]
    exact hget

/-- Witness for C8: in the 2-grid enumeration, the vector at index 5 is
`[1, 2]` and re-encodes to 5. -/
theorem action_encoding_bijection_witness :
    encodeAction ((actionList 2).getD 5 []) = 5 :=
  (action_encoding_bijection 2).2.1 5 (by norm_num)

/-! ## Epsilon decay floor (C2) -/

theorem epsAfter_pow_or :
    ∀ n : Nat, ∃ k ≤ n, epsAfter n = epsilonDecay ^ k ∧
      (k = n ∨ epsAfter n ≤ epsilonMin) := by
  intro n
  induction n with
  | zero => exact ⟨0, le_refl 0, by simp [epsAfter], Or.inl rfl⟩
  | succ n ih =>
    obtain ⟨k, hk, hpow, hcase⟩ := ih
    rcases hcase with hkn | hle
    · subst hkn
      by_cases h : epsilonMin < epsAfter k
      · refine ⟨k + 1, by omega, ?_, Or.inl rfl⟩
        simp only [epsAfter, decayEpsilon, if_pos h]
        rw [hpow, pow_succ]
      · refine ⟨k, by omega, ?_, Or.inr ?_⟩
        · simp only [epsAfter, decayEpsilon, if_neg h]
          exact hpow
        · simp only [epsAfter, decayEpsilon, if_neg h]
          exact le_of_not_lt h
    · have hfrozen : epsAfter (n + 1) = epsAfter n := by
        simp only [epsAfter, decayEpsilon, if_neg (not_lt_of_le hle)]
      exact ⟨k, by omega, by rw [hfrozen]; exact hpow, Or.inr (by rw [hfrozen]; exact hle)⟩

theorem epsilonDecay_pow_ne (k : Nat) : epsilonDecay ^ k ≠ epsilonMin := by
  have h : epsilonDecay = 199 / 200 := by norm_num [epsilonDecay]
  rw [h, epsilonMin]
  intro hk
  rw [div_pow, div_eq_div_iff (by positivity) (by norm_num), one_mul] at hk
  have hnat : (199 : ℕ) ^ k * 100 = 200 ^ k := by exact_mod_cast hk
  rcases Nat.eq_zero_or_pos k with hk0 | hkpos
  · subst hk0; simp at hnat
  · have hdvd : (199 : ℕ) ∣ 200 ^ k := by
      rw [← hnat]
      exact Dvd.dvd.mul_right (dvd_pow_self 199 (Nat.pos_iff_ne_zero.mp hkpos)) 100
    have hco : Nat.Coprime 199 200 := by decide
    have := (hco.pow_right k).eq_one_of_dvd hdvd
    omega

theorem epsilonDecay_pow_1000 : epsilonDecay ^ 1000 < epsilonMin := by
  rw [epsilonDecay, epsilonMin]
  norm_num

theorem epsAfter_drop_lemma : epsAfter 1000 < epsilonMin := by
  obtain ⟨k, hk, hpow, hcase⟩ := epsAfter_pow_or 1000
  rcases hcase with hkn | hle
  · subst hkn
    rw [hpow]
    exact epsilonDecay_pow_1000
  · rcases lt_or_eq_of_le hle with h | h
    · exact h
    · exact absurd (hpow ▸ h) (epsilonDecay_pow_ne k)

theorem epsAfter_lower : ∀ n : Nat, epsilonMin * epsilonDecay < epsAfter n := by
  intro n
  induction n with
  | zero =>
    show epsilonMin * epsilonDecay < 1
    rw [epsilonMin, epsilonDecay]
    norm_num
  | succ n ih =>
    simp only [epsAfter, decayEpsilon]
    by_cases h : epsilonMin < epsAfter n
    · rw [if_pos h]
      have hd : (0 : ℚ) < epsilonDecay := by rw [epsilonDecay]; norm_num
      exact mul_lt_mul_of_pos_right h hd
    · rw [if_neg h]
      exact ih

theorem epsAfter_frozen : ∀ n : Nat, 1000 ≤ n → epsAfter n = epsAfter 1000 := by
  intro n
  induction n with
  | zero => omega
  | succ n ih =>
    intro hn
    rcases Nat.lt_or_ge n 1000 with h | h
    · have : n + 1 = 1000 := by omega
      rw [this]
    · have hfr : epsAfter n ≤ epsilonMin := by
        rw [ih h]
        exact le_of_lt epsAfter_drop_lemma
      have hunfold : epsAfter (n + 1) = decayEpsilon (epsAfter n) := rfl
      rw [hunfold, decayEpsilon, if_neg (not_lt_of_le hfr)]
      exact ih h

/-- C2 counterexample: after 1000 training replay steps epsilon is strictly
below `epsilon_min = 0.01` (in exact arithmetic it freezes at the first power
of 0.995 that is at most 0.01, which is never exactly 0.01), refuting both
"converges to exactly 0.01" and "never drops below 0.01". -/
theorem epsilon_drops_below_min : epsAfter 1000 < 1 / 100 := epsAfter_drop_lemma

/-- C2 (amended): epsilon starts at 1.0; a replay call on a buffer smaller
than the batch size leaves it unchanged; each training replay multiplies it
by 0.995 while it still exceeds `epsilon_min = 0.01`; it stays strictly above
`0.01 * 0.995` forever, is strictly below 0.01 by step 1000, and is frozen
(exactly constant) from step 1000 on — so it converges to a value strictly
between `0.995 * epsilon_min` and `epsilon_min`, not to `epsilon_min`
itself. -/
theorem epsilon_decay_floor_amended :
    epsAfter 0 = 1 ∧
    (∀ size batchSize : Nat, ∀ e : ℚ, size < batchSize →
      replayEpsilon size batchSize e = e) ∧
    (∀ n : Nat, epsilonMin * epsilonDecay < epsAfter n) ∧
    epsAfter 1000 < epsilonMin ∧
    (∀ n : Nat, 1000 ≤ n → epsAfter n = epsAfter 1000) := by
  refine ⟨rfl, ?_, epsAfter_lower, epsAfter_drop_lemma, epsAfter_frozen⟩
  intro size batchSize e h
  simp [replayEpsilon, h]

/-- Witness for C2: a replay with 3 stored transitions and batch size 32 does
not decay epsilon, and epsilon is constant from step 1000 to step 1200. -/
theorem epsilon_decay_floor_amended_witness :
    replayEpsilon 3 32 (1 / 2) = 1 / 2 ∧ epsAfter 1200 = epsAfter 1000 :=
  ⟨epsilon_decay_floor_amended.2.1 3 32 (1 / 2) (by norm_num),
    epsilon_decay_floor_amended.2.2.2.2 1200 (by norm_num)⟩
